import Mathlib

/-!
Verification of the check-list data manager (`CheckData` in
`custom_components/check_list/__init__.py`).

Items are Python dictionaries; we embed them as insertion-ordered
association lists `List (String × JVal)` over a type `JVal` of the JSON-like
values that occur (strings, booleans, naturals, null).  Dictionary lookup
(`d[k]`) is embedded as an `Option`-valued `dget`; where the Python code
indexes a key unconditionally (`item["id"]`, `item["complete"]`) the
embedding reads the key with a `null` default, and theorems that depend on
the key being present carry the corresponding well-formedness hypothesis
(every item produced by `async_add` has all five keys).

Exceptions (`KeyError` from a failed id lookup, `voluptuous.Invalid` from
schema validation) are embedded as `Except StoreErr`; the Python methods
assign `self.items` only after all checks pass, so an error leaves the
stored list unchanged, which the pure embedding reflects by returning
`Except.error` without producing a new list.
-/

set_option maxRecDepth 4000

namespace CheckList

/-- JSON-like values stored in the item dictionaries. -/
inductive JVal : Type
  | str (s : String)
  | bool (b : Bool)
  | nat (n : Nat)
  | null
  deriving DecidableEq

/-- An item dictionary: insertion-ordered keys with values. -/
abbrev Dict := List (String × JVal)

/-- Dictionary lookup, first (and in a real dict, only) entry with the key. -/
def dget : Dict → String → Option JVal
  | [], _ => none
  | p :: rest, k => if p.1 = k then some p.2 else dget rest k

/-- Python truthiness of a stored value (used by `not itm["complete"]`). -/
def JVal.truthy : JVal → Bool
  | .str s => decide (s ≠ "")
  | .bool b => b
  | .nat n => decide (n ≠ 0)
  | .null => false

/-- Whether a value is literally the boolean `False` (Python `is False`). -/
def isFalseVal : Option JVal → Bool
  | some (.bool false) => true
  | _ => false

def JVal.isStr : JVal → Bool
  | .str _ => true
  | _ => false

def JVal.isBool : JVal → Bool
  | .bool _ => true
  | _ => false

/-- Set one key of a dictionary: overwrite in place if present, else append
(the semantics of `d[k] = v` on a Python dict). -/
def dictSet : Dict → String → JVal → Dict
  | [], k, v => [(k, v)]
  | p :: rest, k, v => if p.1 = k then (k, v) :: rest else p :: dictSet rest k v

/-- Merge `info` into `d` key by key (the semantics of `d.update(info)`). -/
def dictUpdate (d : Dict) (info : List (String × JVal)) : Dict :=
  info.foldl (fun d p => dictSet d p.1 p.2) d

/-- The two error conditions raised by the data manager: `KeyError`
(ItemNotFound) and `voluptuous.Invalid` (ValidationError). -/
inductive StoreErr : Type
  | itemNotFound
  | validationError
  deriving DecidableEq

/-- One entry is accepted by `ITEM_UPDATE_SCHEMA` when its key is one of
`complete`, `name`, `type` and its value has the declared type. -/
def validEntry (p : String × JVal) : Bool :=
  if p.1 = "complete" then p.2.isBool
  else if p.1 = "name" then p.2.isStr
  else if p.1 = "type" then p.2.isStr
  else false

/-- A fields map passes `ITEM_UPDATE_SCHEMA` when every entry is recognized
and well typed (voluptuous rejects extra keys and wrongly typed values). -/
def validInfo (info : List (String × JVal)) : Bool :=
  info.all validEntry

/-- The voluptuous schema call: returns the validated fields map or raises
`Invalid`. -/
def ITEM_UPDATE_SCHEMA (info : List (String × JVal)) :
    Except StoreErr (List (String × JVal)) :=
  if validInfo info then .ok info else .error .validationError

/-- `CheckData.async_add`: build the five-key item dictionary, append it.
`fresh` stands for the value of `uuid.uuid4().hex`. -/
def async_add (name type_ : JVal) (fresh : String) (items : List Dict) :
    Dict × List Dict :=
  let item : Dict :=
    [("name", name), ("type", type_), ("id", JVal.str fresh),
     ("complete", JVal.bool false), ("index", JVal.nat items.length)]
  (item, items ++ [item])

/-- Replace the first item whose `id` equals `item_id` by its merge with
`info` (the in-place `item.update(info)` seen from the stored list). -/
def updFirst (item_id : String) (info : List (String × JVal)) :
    List Dict → List Dict
  | [] => []
  | d :: rest =>
    if dget d "id" = some (.str item_id) then dictUpdate d info :: rest
    else d :: updFirst item_id info rest

/-- `CheckData.async_update`: find the item by id (`KeyError` when absent),
validate the fields map, merge it into the found item in place; returns the
updated item and the updated list. -/
def async_update (item_id : String) (info : List (String × JVal))
    (items : List Dict) : Except StoreErr (Dict × List Dict) :=
  match items.find? (fun d => decide (dget d "id" = some (.str item_id))) with
  | none => .error .itemNotFound
  | some d =>
    match ITEM_UPDATE_SCHEMA info with
    | .error e => .error e
    | .ok info => .ok (dictUpdate d info, updFirst item_id info items)

/-- `CheckData.async_clear_completed`: keep the items whose `complete` value
is falsy (`not itm["complete"]`). -/
def async_clear_completed (items : List Dict) : List Dict :=
  items.filter (fun d => !((dget d "complete").getD JVal.null).truthy)

/-- `CheckData.async_list_items`: returns the stored list unchanged. -/
def async_list_items (items : List Dict) : List Dict :=
  items

/-- `CheckData.async_update_list`: merge `info` into every item in place.
Note there is no schema validation on this path. -/
def async_update_list (info : List (String × JVal)) (items : List Dict) :
    List Dict :=
  items.map (fun d => dictUpdate d info)

/-- The key an item contributes to `all_items_mapping` (`item["id"]`). -/
def keyOf (d : Dict) : JVal :=
  (dget d "id").getD JVal.null

/-- Lookup in the id-to-item mapping. -/
def assocGet : List (JVal × Dict) → JVal → Option Dict
  | [], _ => none
  | p :: rest, k => if p.1 = k then some p.2 else assocGet rest k

/-- Insert into the mapping: overwrite the value in place when the key is
present (as a Python dict comprehension does), else append. -/
def assocSet : List (JVal × Dict) → JVal → Dict → List (JVal × Dict)
  | [], k, v => [(k, v)]
  | p :: rest, k, v => if p.1 = k then (k, v) :: rest else p :: assocSet rest k v

/-- Delete a key from the mapping (`del all_items_mapping[item_id]`). -/
def assocDel : List (JVal × Dict) → JVal → List (JVal × Dict)
  | [], _ => []
  | p :: rest, k => if p.1 = k then rest else p :: assocDel rest k

/-- The dict comprehension `{item["id"]: item for item in self.items}`. -/
def buildMapping (items : List Dict) : List (JVal × Dict) :=
  items.foldl (fun m d => assocSet m (keyOf d) d) []

/-- The first loop of `async_reorder`: walk `item_ids`, fail with `KeyError`
on an id absent from the mapping, otherwise move the item from the mapping
to the output sequence. -/
def reorderLoop : List String → List (JVal × Dict) → List Dict →
    Except StoreErr (List Dict × List (JVal × Dict))
  | [], m, acc => .ok (acc, m)
  | i :: rest, m, acc =>
    match assocGet m (.str i) with
    | none => .error .itemNotFound
    | some itm => reorderLoop rest (assocDel m (.str i)) (acc ++ [itm])

/-- The second loop of `async_reorder`: walk the remaining mapping in
insertion order; an item whose `complete` is literally `False` raises
`Invalid`, the others are appended to the output. -/
def appendRest : List (JVal × Dict) → List Dict → Except StoreErr (List Dict)
  | [], acc => .ok acc
  | p :: rest, acc =>
    if isFalseVal (dget p.2 "complete") then .error .validationError
    else appendRest rest (acc ++ [p.2])

/-- `CheckData.async_reorder`: build the mapping, place the named items,
append the remaining (necessarily completed) items, and return the new list.
An error leaves `self.items` untouched because the assignment happens last. -/
def async_reorder (item_ids : List String) (items : List Dict) :
    Except StoreErr (List Dict) :=
  match reorderLoop item_ids (buildMapping items) [] with
  | .error e => .error e
  | .ok (acc, m) => appendRest m acc

/-- Modelled from the spec (section 4.1, UpdateAll): the spec-side UpdateAll
that applies the same partial-field semantics as Update to every item,
failing with ValidationError on a fields map Update would reject.  Used to
compare `async_update_list` against the specified behavior. -/
def updateAllSpec (info : List (String × JVal)) (items : List Dict) :
    Except StoreErr (List Dict) :=
  if validInfo info then .ok (items.map (fun d => dictUpdate d info))
  else .error .validationError

/-- Apply `async_update` with the same fields map successively to each id in
`ids`, threading the list state (the spec reading of UpdateAll as Update
applied to every item in order). -/
def seqUpdate (ids : List String) (info : List (String × JVal))
    (st : List Dict) : Except StoreErr (List Dict) :=
  match ids with
  | [] => .ok st
  | i :: rest =>
    match async_update i info st with
    | .error e => .error e
    | .ok (_, st') => seqUpdate rest info st'

/-- A sequence of `async_add` calls, each triple giving the name, the type
and the generated id of one call. -/
def addSeq : List (JVal × JVal × String) → List Dict → List Dict
  | [], st => st
  | c :: rest, st => addSeq rest (async_add c.1 c.2.1 c.2.2 st).2

/-- Example item produced by `async_add("A", null)` with generated id `a`. -/
def exItemA : Dict := (async_add (JVal.str "A") JVal.null "a" []).1

/-- Example state holding only `exItemA`. -/
def exState1 : List Dict := (async_add (JVal.str "A") JVal.null "a" []).2

/-- Example item produced by a second `async_add("B", null)` with id `b`. -/
def exItemB : Dict := (async_add (JVal.str "B") JVal.null "b" exState1).1

/-- Example state `[A, B]`, both items incomplete. -/
def exState2 : List Dict := (async_add (JVal.str "B") JVal.null "b" exState1).2

/-- Item `A` after `async_update` marked it complete. -/
def exItemAc : Dict := dictUpdate exItemA [("complete", JVal.bool true)]

/-- Example state `[A, B]` with `A` complete and `B` incomplete. -/
def exState2c : List Dict := [exItemAc, exItemB]

/-! ### Dictionary lemmas -/

theorem dget_dictSet_self (d : Dict) (k : String) (v : JVal) :
    dget (dictSet d k v) k = some v := by
  induction d with
  | nil => simp [dictSet, dget]
  | cons p rest ih =>
    by_cases h : p.1 = k
    · simp [dictSet, h, dget]
    · simp [dictSet, h, dget, ih]

theorem dget_dictSet_ne (d : Dict) (k k' : String) (v : JVal) (h : k' ≠ k) :
    dget (dictSet d k v) k' = dget d k' := by
  have h' : ¬(k = k') := fun hh => h hh.symm
  induction d with
  | nil => simp [dictSet, dget, h']
  | cons p rest ih =>
    by_cases hp : p.1 = k
    · simp [dictSet, hp, dget, h']
    · simp [dictSet, hp, dget, ih]

theorem dget_dictUpdate_not_mem (d : Dict) (info : List (String × JVal))
    (k : String) (h : k ∉ info.map Prod.fst) :
    dget (dictUpdate d info) k = dget d k := by
  induction info generalizing d with
  | nil => rfl
  | cons p rest ih =>
    simp only [List.map_cons, List.mem_cons, not_or] at h
    show dget (dictUpdate (dictSet d p.1 p.2) rest) k = dget d k
    rw [ih _ h.2, dget_dictSet_ne _ _ _ _ h.1]

theorem dget_dictUpdate_mem (d : Dict) (info : List (String × JVal))
    (k : String) (v : JVal) (hnd : (info.map Prod.fst).Nodup)
    (hm : (k, v) ∈ info) :
    dget (dictUpdate d info) k = some v := by
  induction info generalizing d with
  | nil => cases hm
  | cons p rest ih =>
    simp only [List.map_cons, List.nodup_cons] at hnd
    rcases List.mem_cons.mp hm with h | h
    · subst h
      show dget (dictUpdate (dictSet d k v) rest) k = some v
      rw [dget_dictUpdate_not_mem _ _ _ hnd.1, dget_dictSet_self]
    · exact ih _ hnd.2 h

theorem validEntry_keys (p : String × JVal) (h : validEntry p = true) :
    p.1 = "complete" ∨ p.1 = "name" ∨ p.1 = "type" := by
  unfold validEntry at h
  split at h
  · exact Or.inl (by assumption)
  · split at h
    · exact Or.inr (Or.inl (by assumption))
    · split at h
      · exact Or.inr (Or.inr (by assumption))
      · cases h

theorem validInfo_not_mem_id (info : List (String × JVal))
    (h : validInfo info = true) : "id" ∉ info.map Prod.fst := by
  intro hmem
  rcases List.mem_map.mp hmem with ⟨p, hp, hk⟩
  have hv : validEntry p = true := List.all_eq_true.mp h p hp
  rcases validEntry_keys p hv with h1 | h1 | h1 <;> rw [hk] at h1 <;>
    exact absurd h1 (by decide)

theorem keyOf_eq_str (d : Dict) (s : String) :
    keyOf d = JVal.str s ↔ dget d "id" = some (JVal.str s) := by
  cases h : dget d "id" <;> simp [keyOf, h]

/-! ### Association-list (id mapping) lemmas -/

theorem assocGet_some_mem_keys (m : List (JVal × Dict)) (k : JVal) (v : Dict)
    (h : assocGet m k = some v) : k ∈ m.map Prod.fst := by
  induction m with
  | nil => cases h
  | cons p rest ih =>
    rw [List.map_cons]
    by_cases hp : p.1 = k
    · exact List.mem_cons.mpr (Or.inl hp.symm)
    · simp only [assocGet, hp, if_false] at h
      exact List.mem_cons_of_mem _ (ih h)

theorem mem_keys_assocGet (m : List (JVal × Dict)) (k : JVal)
    (h : k ∈ m.map Prod.fst) : ∃ v, assocGet m k = some v := by
  induction m with
  | nil => cases h
  | cons p rest ih =>
    by_cases hp : p.1 = k
    · exact ⟨p.2, by simp [assocGet, hp]⟩
    · rw [List.map_cons] at h
      rcases List.mem_cons.mp h with h1 | h1
      · exact absurd h1.symm hp
      · rcases ih h1 with ⟨v, hv⟩
        exact ⟨v, by simp [assocGet, hp, hv]⟩

theorem assocGet_assocDel_ne (m : List (JVal × Dict)) (k k' : JVal)
    (h : k' ≠ k) : assocGet (assocDel m k) k' = assocGet m k' := by
  have h' : ¬(k = k') := fun hh => h hh.symm
  induction m with
  | nil => rfl
  | cons p rest ih =>
    by_cases hp : p.1 = k
    · simp [assocDel, hp, assocGet, h']
    · simp [assocDel, hp, assocGet, ih]

theorem assocDel_sublist (m : List (JVal × Dict)) (k : JVal) :
    List.Sublist (assocDel m k) m := by
  induction m with
  | nil => simp [assocDel]
  | cons p rest ih =>
    by_cases hp : p.1 = k
    · simp only [assocDel, hp, if_true, if_pos]
      exact (List.Sublist.refl rest).cons p
    · simpa [assocDel, hp] using ih.cons₂ p

theorem keys_assocDel_subset (m : List (JVal × Dict)) (k k' : JVal)
    (h : k' ∈ (assocDel m k).map Prod.fst) : k' ∈ m.map Prod.fst :=
  ((assocDel_sublist m k).map Prod.fst).subset h

theorem not_mem_keys_assocDel (m : List (JVal × Dict)) (k : JVal)
    (hnd : (m.map Prod.fst).Nodup) : k ∉ (assocDel m k).map Prod.fst := by
  induction m with
  | nil => simp [assocDel]
  | cons p rest ih =>
    rw [List.map_cons, List.nodup_cons] at hnd
    by_cases hp : p.1 = k
    · have hk : k ∉ rest.map Prod.fst := by rw [← hp]; exact hnd.1
      simpa [assocDel, hp] using hk
    · intro hmem
      have hshape : (assocDel (p :: rest) k).map Prod.fst =
          p.1 :: (assocDel rest k).map Prod.fst := by
        simp [assocDel, hp]
      rw [hshape] at hmem
      rcases List.mem_cons.mp hmem with h1 | h1
      · exact hp h1.symm
      · exact ih hnd.2 h1

theorem assocDel_eq_filter (m : List (JVal × Dict)) (k : JVal)
    (hnd : (m.map Prod.fst).Nodup) :
    assocDel m k = m.filter (fun p => !decide (p.1 = k)) := by
  induction m with
  | nil => rfl
  | cons p rest ih =>
    rw [List.map_cons, List.nodup_cons] at hnd
    by_cases hp : p.1 = k
    · have hrest : rest.filter (fun p => !decide (p.1 = k)) = rest := by
        apply List.filter_eq_self.mpr
        intro q hq
        simp only [Bool.not_eq_true', decide_eq_false_iff_not]
        intro hqk
        have hq1 : q.1 ∈ rest.map Prod.fst := List.mem_map.mpr ⟨q, hq, rfl⟩
        rw [hqk, ← hp] at hq1
        exact hnd.1 hq1
      simp [assocDel, hp, List.filter_cons, hrest]
    · simp [assocDel, hp, List.filter_cons, ih hnd.2]

theorem mem_keys_assocSet (m : List (JVal × Dict)) (k k' : JVal) (v : Dict)
    (h : k' ∈ (assocSet m k v).map Prod.fst) : k' = k ∨ k' ∈ m.map Prod.fst := by
  induction m with
  | nil =>
    simp only [assocSet, List.map_cons, List.map_nil] at h
    rcases List.mem_cons.mp h with h1 | h1
    · exact Or.inl h1
    · cases h1
  | cons p rest ih =>
    by_cases hp : p.1 = k
    · rw [show assocSet (p :: rest) k v = (k, v) :: rest by simp [assocSet, hp],
        List.map_cons] at h
      rcases List.mem_cons.mp h with h1 | h1
      · exact Or.inl h1
      · exact Or.inr (by rw [List.map_cons]; exact List.mem_cons_of_mem _ h1)
    · rw [show assocSet (p :: rest) k v = p :: assocSet rest k v by
        simp [assocSet, hp], List.map_cons] at h
      rcases List.mem_cons.mp h with h1 | h1
      · exact Or.inr (by rw [List.map_cons]; exact List.mem_cons.mpr (Or.inl h1))
      · rcases ih h1 with h2 | h2
        · exact Or.inl h2
        · exact Or.inr (by rw [List.map_cons]; exact List.mem_cons_of_mem _ h2)

theorem nodup_keys_assocSet (m : List (JVal × Dict)) (k : JVal) (v : Dict)
    (hnd : (m.map Prod.fst).Nodup) :
    ((assocSet m k v).map Prod.fst).Nodup := by
  induction m with
  | nil => simp [assocSet]
  | cons p rest ih =>
    rw [List.map_cons, List.nodup_cons] at hnd
    by_cases hp : p.1 = k
    · rw [show assocSet (p :: rest) k v = (k, v) :: rest by simp [assocSet, hp],
        List.map_cons, List.nodup_cons]
      exact ⟨by rw [← hp]; exact hnd.1, hnd.2⟩
    · rw [show assocSet (p :: rest) k v = p :: assocSet rest k v by
        simp [assocSet, hp], List.map_cons, List.nodup_cons]
      refine ⟨?_, ih hnd.2⟩
      intro hmem
      rcases mem_keys_assocSet rest k p.1 v hmem with h1 | h1
      · exact hp h1
      · exact hnd.1 h1

theorem assocSet_of_not_mem (m : List (JVal × Dict)) (k : JVal) (v : Dict)
    (h : k ∉ m.map Prod.fst) : assocSet m k v = m ++ [(k, v)] := by
  induction m with
  | nil => rfl
  | cons p rest ih =>
    simp only [List.map_cons, List.mem_cons, not_or] at h
    have h1 : ¬p.1 = k := fun hh => h.1 hh.symm
    simp [assocSet, h1, ih h.2]

theorem assocSet_foldl_keys (items : List Dict) (m : List (JVal × Dict))
    (k : JVal)
    (h : k ∈ (items.foldl (fun m d => assocSet m (keyOf d) d) m).map Prod.fst) :
    k ∈ m.map Prod.fst ∨ k ∈ items.map keyOf := by
  induction items generalizing m with
  | nil => exact Or.inl h
  | cons d rest ih =>
    rcases ih (assocSet m (keyOf d) d) h with h1 | h1
    · rcases mem_keys_assocSet m (keyOf d) k d h1 with h2 | h2
      · exact Or.inr (by rw [List.map_cons]; exact List.mem_cons.mpr (Or.inl h2))
      · exact Or.inl h2
    · exact Or.inr (by rw [List.map_cons]; exact List.mem_cons_of_mem _ h1)

theorem keys_buildMapping_subset (items : List Dict) (k : JVal)
    (h : k ∈ (buildMapping items).map Prod.fst) : k ∈ items.map keyOf := by
  rcases assocSet_foldl_keys items [] k h with h1 | h1
  · cases h1
  · exact h1

theorem nodup_keys_buildMapping_aux (items : List Dict)
    (m : List (JVal × Dict)) (hnd : (m.map Prod.fst).Nodup) :
    (((items.foldl (fun m d => assocSet m (keyOf d) d) m)).map Prod.fst).Nodup := by
  induction items generalizing m with
  | nil => exact hnd
  | cons d rest ih => exact ih _ (nodup_keys_assocSet m (keyOf d) d hnd)

theorem nodup_keys_buildMapping (items : List Dict) :
    ((buildMapping items).map Prod.fst).Nodup :=
  nodup_keys_buildMapping_aux items [] List.nodup_nil

theorem buildMapping_aux_eq_map (items : List Dict) (m : List (JVal × Dict))
    (hdisj : ∀ d ∈ items, keyOf d ∉ m.map Prod.fst)
    (hnd : (items.map keyOf).Nodup) :
    items.foldl (fun m d => assocSet m (keyOf d) d) m =
      m ++ items.map (fun d => (keyOf d, d)) := by
  induction items generalizing m with
  | nil => simp
  | cons d rest ih =>
    rw [List.map_cons, List.nodup_cons] at hnd
    have hstep : assocSet m (keyOf d) d = m ++ [(keyOf d, d)] :=
      assocSet_of_not_mem m (keyOf d) d (hdisj d (List.mem_cons_self d rest))
    have hdisj' : ∀ d' ∈ rest, keyOf d' ∉ (m ++ [(keyOf d, d)]).map Prod.fst := by
      intro d' hd' hmem
      rw [List.map_append] at hmem
      rcases List.mem_append.mp hmem with h1 | h1
      · exact hdisj d' (List.mem_cons_of_mem _ hd') h1
      · have h2 : keyOf d' = keyOf d := by simpa using h1
        exact hnd.1 (h2 ▸ List.mem_map.mpr ⟨d', hd', rfl⟩)
    calc (d :: rest).foldl (fun m d => assocSet m (keyOf d) d) m
        = rest.foldl (fun m d => assocSet m (keyOf d) d) (m ++ [(keyOf d, d)]) := by
          rw [List.foldl_cons, hstep]
      _ = m ++ [(keyOf d, d)] ++ rest.map (fun d => (keyOf d, d)) :=
          ih _ hdisj' hnd.2
      _ = m ++ (d :: rest).map (fun d => (keyOf d, d)) := by
          rw [List.map_cons, List.append_assoc]; rfl

theorem buildMapping_eq_map (items : List Dict)
    (hnd : (items.map keyOf).Nodup) :
    buildMapping items = items.map (fun d => (keyOf d, d)) := by
  have := buildMapping_aux_eq_map items [] (by intro d _ h; cases h) hnd
  simpa [buildMapping] using this

theorem assocGet_del_perm (m : List (JVal × Dict)) (k : JVal) (v : Dict)
    (h : assocGet m k = some v) :
    List.Perm (m.map Prod.snd) (v :: (assocDel m k).map Prod.snd) := by
  induction m with
  | nil => cases h
  | cons p rest ih =>
    by_cases hp : p.1 = k
    · simp only [assocGet, hp, if_true, Option.some.injEq] at h
      simp [assocDel, hp, h]
    · simp only [assocGet, hp, if_false] at h
      have h2 := ih h
      have hdel : assocDel (p :: rest) k = p :: assocDel rest k := by
        simp [assocDel, hp]
      rw [hdel]
      simp only [List.map_cons]
      exact (h2.cons p.2).trans (List.Perm.swap v p.2 _)

/-! ### Reorder loop lemmas -/

theorem filterMapCongr {α β : Type} (l : List α) (f g : α → Option β)
    (h : ∀ a ∈ l, f a = g a) : l.filterMap f = l.filterMap g := by
  induction l with
  | nil => rfl
  | cons a rest ih =>
    rw [List.filterMap_cons, List.filterMap_cons, h a (List.mem_cons_self a rest),
      ih (fun b hb => h b (List.mem_cons_of_mem _ hb))]

theorem reorderLoop_ok (ids : List String) (m : List (JVal × Dict))
    (acc : List Dict) (hnd : (m.map Prod.fst).Nodup)
    (hmem : ∀ i ∈ ids, JVal.str i ∈ m.map Prod.fst) (hids : ids.Nodup) :
    reorderLoop ids m acc =
      .ok (acc ++ ids.filterMap (fun i => assocGet m (JVal.str i)),
        m.filter (fun p => !decide (p.1 ∈ ids.map JVal.str))) := by
  induction ids generalizing m acc with
  | nil =>
    have : m.filter (fun p => !decide (p.1 ∈ ([] : List String).map JVal.str)) = m := by
      apply List.filter_eq_self.mpr
      intro p _
      simp
    rw [this]
    simp [reorderLoop]
  | cons i rest ih =>
    rw [List.nodup_cons] at hids
    rcases mem_keys_assocGet m (JVal.str i)
      (hmem i (List.mem_cons_self i rest)) with ⟨v, hv⟩
    have hsubnd : ((assocDel m (JVal.str i)).map Prod.fst).Nodup :=
      List.Nodup.sublist ((assocDel_sublist m (JVal.str i)).map Prod.fst) hnd
    have hmem' : ∀ i' ∈ rest, JVal.str i' ∈ (assocDel m (JVal.str i)).map Prod.fst := by
      intro i' hi'
      have hne : JVal.str i' ≠ JVal.str i := by
        intro hh
        exact hids.1 (by cases hh; exact hi')
      rcases mem_keys_assocGet m (JVal.str i')
        (hmem i' (List.mem_cons_of_mem _ hi')) with ⟨v', hv'⟩
      exact assocGet_some_mem_keys _ _ v'
        ((assocGet_assocDel_ne m (JVal.str i) (JVal.str i') hne).trans hv' :)
    have hstep := ih (assocDel m (JVal.str i)) (acc ++ [v]) hsubnd hmem' hids.2
    have hloop : reorderLoop (i :: rest) m acc =
        reorderLoop rest (assocDel m (JVal.str i)) (acc ++ [v]) := by
      simp [reorderLoop, hv]
    rw [hloop, hstep]
    have hfm : rest.filterMap (fun i' => assocGet (assocDel m (JVal.str i)) (JVal.str i')) =
        rest.filterMap (fun i' => assocGet m (JVal.str i')) := by
      apply filterMapCongr
      intro i' hi'
      apply assocGet_assocDel_ne
      intro hh
      exact hids.1 (by cases hh; exact hi')
    have hfl : (assocDel m (JVal.str i)).filter
          (fun p => !decide (p.1 ∈ rest.map JVal.str)) =
        m.filter (fun p => !decide (p.1 ∈ (i :: rest).map JVal.str)) := by
      rw [assocDel_eq_filter m (JVal.str i) hnd, List.filter_filter]
      apply List.filter_congr
      intro p _
      by_cases h1 : p.1 = JVal.str i <;> by_cases h2 : p.1 ∈ rest.map JVal.str <;>
        simp [h1, h2]
    rw [hfm, hfl]
    simp [List.filterMap_cons, hv]

theorem reorderLoop_perm (ids : List String) (m : List (JVal × Dict))
    (acc acc' : List Dict) (m' : List (JVal × Dict))
    (h : reorderLoop ids m acc = .ok (acc', m')) :
    List.Perm (acc' ++ m'.map Prod.snd) (acc ++ m.map Prod.snd) := by
  induction ids generalizing m acc with
  | nil =>
    simp only [reorderLoop, Except.ok.injEq, Prod.mk.injEq] at h
    obtain ⟨rfl, rfl⟩ := h
    exact List.Perm.refl _
  | cons i rest ih =>
    unfold reorderLoop at h
    cases hv : assocGet m (JVal.str i) with
    | none => rw [hv] at h; cases h
    | some v =>
      rw [hv] at h
      have hperm := ih (assocDel m (JVal.str i)) (acc ++ [v]) h
      refine hperm.trans ?_
      have h2 := assocGet_del_perm m (JVal.str i) v hv
      have h3 : (acc ++ [v]) ++ (assocDel m (JVal.str i)).map Prod.snd =
          acc ++ (v :: (assocDel m (JVal.str i)).map Prod.snd) := by simp
      rw [h3]
      exact List.Perm.append_left acc h2.symm

theorem reorderLoop_err_missing : ∀ (ids : List String) (m : List (JVal × Dict))
    (acc : List Dict) (i : String), i ∈ ids → JVal.str i ∉ m.map Prod.fst →
    reorderLoop ids m acc = .error .itemNotFound
  | [], _, _, i, hi, _ => absurd hi (List.not_mem_nil i)
  | j :: rest, m, acc, i, hi, hnotin => by
    unfold reorderLoop
    cases hv : assocGet m (JVal.str j) with
    | none => rfl
    | some v =>
      rcases List.mem_cons.mp hi with h1 | h1
      · subst h1
        exact absurd (assocGet_some_mem_keys m _ v hv) hnotin
      · exact reorderLoop_err_missing rest (assocDel m (JVal.str j)) (acc ++ [v]) i h1
          (fun hmem => hnotin (keys_assocDel_subset m (JVal.str j) _ hmem))

theorem reorderLoop_dup : ∀ (ids : List String) (m : List (JVal × Dict))
    (acc : List Dict), (m.map Prod.fst).Nodup → ¬ids.Nodup →
    reorderLoop ids m acc = .error .itemNotFound
  | [], _, _, _, h => absurd List.nodup_nil h
  | j :: rest, m, acc, hnd, h => by
    unfold reorderLoop
    cases hv : assocGet m (JVal.str j) with
    | none => rfl
    | some v =>
      by_cases hj : j ∈ rest
      · exact reorderLoop_err_missing rest (assocDel m (JVal.str j)) (acc ++ [v]) j hj
          (not_mem_keys_assocDel m (JVal.str j) hnd)
      · have hrest : ¬rest.Nodup := fun hh => h (List.nodup_cons.mpr ⟨hj, hh⟩)
        exact reorderLoop_dup rest (assocDel m (JVal.str j)) (acc ++ [v])
          (List.Nodup.sublist ((assocDel_sublist m (JVal.str j)).map Prod.fst) hnd) hrest

theorem appendRest_ok_eq (m : List (JVal × Dict)) (acc res : List Dict)
    (h : appendRest m acc = .ok res) : res = acc ++ m.map Prod.snd := by
  induction m generalizing acc with
  | nil =>
    simp only [appendRest, Except.ok.injEq] at h
    simp [h]
  | cons p rest ih =>
    unfold appendRest at h
    split at h
    · cases h
    · have := ih _ h
      simp [this]

theorem appendRest_ok_of_all (m : List (JVal × Dict)) (acc : List Dict)
    (h : ∀ p ∈ m, isFalseVal (dget p.2 "complete") = false) :
    appendRest m acc = .ok (acc ++ m.map Prod.snd) := by
  induction m generalizing acc with
  | nil => simp [appendRest]
  | cons p rest ih =>
    unfold appendRest
    rw [if_neg (by rw [h p (List.mem_cons_self p rest)]; simp)]
    rw [ih (acc ++ [p.2]) (fun q hq => h q (List.mem_cons_of_mem _ hq))]
    simp

theorem appendRest_err (m : List (JVal × Dict)) (acc : List Dict)
    (h : ∃ p ∈ m, isFalseVal (dget p.2 "complete") = true) :
    appendRest m acc = .error .validationError := by
  induction m generalizing acc with
  | nil =>
    rcases h with ⟨p, hp, _⟩
    cases hp
  | cons q rest ih =>
    unfold appendRest
    by_cases hq : isFalseVal (dget q.2 "complete") = true
    · rw [if_pos hq]
    · rcases h with ⟨p, hp, hpf⟩
      rcases List.mem_cons.mp hp with h1 | h1
      · exact absurd (h1 ▸ hpf) hq
      · rw [if_neg hq]
        exact ih (acc ++ [q.2]) ⟨p, h1, hpf⟩

/-! ### Assembled reorder lemmas -/

theorem assocGet_pairs (items : List Dict) (k : JVal) :
    assocGet (items.map (fun d => (keyOf d, d))) k =
      items.find? (fun d => decide (keyOf d = k)) := by
  induction items with
  | nil => rfl
  | cons d rest ih =>
    rw [List.map_cons]
    by_cases h : keyOf d = k
    · rw [List.find?_cons_of_pos _ (by simp [h])]
      simp [assocGet, h]
    · rw [List.find?_cons_of_neg _ (by simp [h])]
      simp [assocGet, h, ih]

theorem async_reorder_of_loop_ok (item_ids : List String) (items A : List Dict)
    (M : List (JVal × Dict))
    (h : reorderLoop item_ids (buildMapping items) [] = .ok (A, M)) :
    async_reorder item_ids items = appendRest M A := by
  unfold async_reorder
  rw [h]

theorem async_reorder_of_loop_err (item_ids : List String) (items : List Dict)
    (e : StoreErr)
    (h : reorderLoop item_ids (buildMapping items) [] = .error e) :
    async_reorder item_ids items = .error e := by
  unfold async_reorder
  rw [h]

theorem pairs_keys (items : List Dict) :
    (items.map (fun d => (keyOf d, d))).map Prod.fst = items.map keyOf := by
  rw [List.map_map]
  rfl

theorem pairs_snd (items : List Dict) :
    (items.map (fun d => (keyOf d, d))).map Prod.snd = items := by
  rw [List.map_map]
  exact List.map_id items

/-- Under distinct ids, a duplicate-free sequence of existing ids drives the
reorder loop to completion with the named items placed first and the rest of
the mapping being exactly the omitted items in their original order. -/
theorem async_reorder_spec (items : List Dict) (item_ids : List String)
    (hnd : (items.map keyOf).Nodup) (hids : item_ids.Nodup)
    (hex : ∀ i ∈ item_ids, JVal.str i ∈ items.map keyOf) :
    async_reorder item_ids items = appendRest
      ((items.filter (fun d => !decide (keyOf d ∈ item_ids.map JVal.str))).map
        (fun d => (keyOf d, d)))
      (item_ids.filterMap (fun i =>
        items.find? (fun d => decide (keyOf d = JVal.str i)))) := by
  have hloop := reorderLoop_ok item_ids (items.map (fun d => (keyOf d, d))) []
    (by rw [pairs_keys]; exact hnd)
    (by intro i hi; rw [pairs_keys]; exact hex i hi) hids
  have hfm : item_ids.filterMap
        (fun i => assocGet (items.map (fun d => (keyOf d, d))) (JVal.str i)) =
      item_ids.filterMap (fun i =>
        items.find? (fun d => decide (keyOf d = JVal.str i))) :=
    filterMapCongr _ _ _ (fun i _ => assocGet_pairs items (JVal.str i))
  have hfl : (items.map (fun d => (keyOf d, d))).filter
        (fun p => !decide (p.1 ∈ item_ids.map JVal.str)) =
      (items.filter (fun d => !decide (keyOf d ∈ item_ids.map JVal.str))).map
        (fun d => (keyOf d, d)) := by
    rw [List.filter_map]
    rfl
  rw [hfm, hfl, List.nil_append] at hloop
  refine async_reorder_of_loop_ok item_ids items _ _ ?_
  rw [buildMapping_eq_map items hnd]
  exact hloop

/-! ### Update lemmas -/

theorem find_pred_append (pre post : List Dict) (d : Dict) (p : Dict → Bool)
    (hpre : ∀ x ∈ pre, p x = false) (hd : p d = true) :
    (pre ++ d :: post).find? p = some d := by
  induction pre with
  | nil => simp [List.find?, hd]
  | cons a rest ih =>
    rw [List.cons_append, List.find?_cons_of_neg _
      (by rw [hpre a (List.mem_cons_self a rest)]; simp)]
    exact ih (fun x hx => hpre x (List.mem_cons_of_mem _ hx))

theorem updFirst_append_not (item_id : String) (info : List (String × JVal))
    (pre rest : List Dict)
    (h : ∀ x ∈ pre, ¬dget x "id" = some (JVal.str item_id)) :
    updFirst item_id info (pre ++ rest) = pre ++ updFirst item_id info rest := by
  induction pre with
  | nil => rfl
  | cons a p ih =>
    rw [List.cons_append]
    show (if dget a "id" = some (JVal.str item_id) then _ else _) = _
    rw [if_neg (h a (List.mem_cons_self a p)), List.cons_append,
      ih (fun x hx => h x (List.mem_cons_of_mem _ hx))]

theorem updFirst_cons_pos (item_id : String) (info : List (String × JVal))
    (d : Dict) (rest : List Dict)
    (h : dget d "id" = some (JVal.str item_id)) :
    updFirst item_id info (d :: rest) = dictUpdate d info :: rest := by
  show (if dget d "id" = some (JVal.str item_id) then _ else _) = _
  rw [if_pos h]

theorem async_update_not_found (item_id : String) (info : List (String × JVal))
    (items : List Dict)
    (h : ∀ d ∈ items, ¬dget d "id" = some (JVal.str item_id)) :
    async_update item_id info items = .error .itemNotFound := by
  unfold async_update
  rw [List.find?_eq_none.mpr (fun d hd => by simp [h d hd])]

theorem async_update_found (item_id : String) (info : List (String × JVal))
    (pre post : List Dict) (d : Dict)
    (hpre : ∀ x ∈ pre, ¬dget x "id" = some (JVal.str item_id))
    (hd : dget d "id" = some (JVal.str item_id))
    (hvalid : validInfo info = true) :
    async_update item_id info (pre ++ d :: post) =
      .ok (dictUpdate d info, pre ++ dictUpdate d info :: post) := by
  unfold async_update ITEM_UPDATE_SCHEMA
  rw [find_pred_append pre post d _ (fun x hx => by simp [hpre x hx]) (by simp [hd]),
    if_pos hvalid]
  show Except.ok (dictUpdate d info, updFirst item_id info (pre ++ d :: post)) = _
  rw [updFirst_append_not item_id info pre _ hpre,
    updFirst_cons_pos item_id info d post hd]

theorem async_update_ok_state (item_id : String) (info : List (String × JVal))
    (items : List Dict) (pr : Dict × List Dict)
    (h : async_update item_id info items = .ok pr) :
    validInfo info = true ∧ pr.2 = updFirst item_id info items := by
  unfold async_update ITEM_UPDATE_SCHEMA at h
  cases hf : items.find? (fun d => decide (dget d "id" = some (JVal.str item_id))) with
  | none => rw [hf] at h; cases h
  | some d =>
    rw [hf] at h
    by_cases hv : validInfo info = true
    · rw [if_pos hv] at h
      refine ⟨hv, ?_⟩
      cases h
      rfl
    · rw [if_neg hv] at h
      cases h

theorem keyOf_dictUpdate (d : Dict) (info : List (String × JVal))
    (h : "id" ∉ info.map Prod.fst) : keyOf (dictUpdate d info) = keyOf d := by
  unfold keyOf
  rw [dget_dictUpdate_not_mem d info "id" h]

theorem keys_updFirst (item_id : String) (info : List (String × JVal))
    (items : List Dict) (h : "id" ∉ info.map Prod.fst) :
    (updFirst item_id info items).map keyOf = items.map keyOf := by
  induction items with
  | nil => rfl
  | cons d rest ih =>
    by_cases hd : dget d "id" = some (JVal.str item_id)
    · rw [updFirst_cons_pos item_id info d rest hd, List.map_cons, List.map_cons,
        keyOf_dictUpdate d info h]
    · show ((if dget d "id" = some (JVal.str item_id) then _ else _ :
        List Dict)).map keyOf = _
      rw [if_neg hd, List.map_cons, List.map_cons, ih]

theorem keys_async_update_list (info : List (String × JVal)) (items : List Dict)
    (h : "id" ∉ info.map Prod.fst) :
    (async_update_list info items).map keyOf = items.map keyOf := by
  induction items with
  | nil => rfl
  | cons d rest ih =>
    show keyOf (dictUpdate d info) :: (async_update_list info rest).map keyOf =
      keyOf d :: rest.map keyOf
    rw [keyOf_dictUpdate d info h, ih]

theorem async_update_cons_skip (i : String) (info : List (String × JVal))
    (d : Dict) (st : List Dict)
    (hd : ¬dget d "id" = some (JVal.str i)) :
    async_update i info (d :: st) =
      Except.map (fun r => (r.1, d :: r.2)) (async_update i info st) := by
  unfold async_update
  rw [show (d :: st).find? (fun x => decide (dget x "id" = some (JVal.str i))) =
      st.find? (fun x => decide (dget x "id" = some (JVal.str i))) from by
    simp [List.find?, hd]]
  cases hf : st.find? (fun x => decide (dget x "id" = some (JVal.str i))) with
  | none => rfl
  | some d0 =>
    unfold ITEM_UPDATE_SCHEMA
    by_cases hv : validInfo info = true
    · rw [if_pos hv]
      show Except.ok (dictUpdate d0 info, updFirst i info (d :: st)) = _
      rw [show updFirst i info (d :: st) = d :: updFirst i info st from by
        show (if dget d "id" = some (JVal.str i) then _ else _) = _
        rw [if_neg hd]]
      rfl
    · rw [if_neg hv]
      rfl

theorem seqUpdate_skip : ∀ (ids : List String) (info : List (String × JVal))
    (st : List Dict) (d : Dict),
    (∀ i ∈ ids, ¬dget d "id" = some (JVal.str i)) →
    seqUpdate ids info (d :: st) =
      Except.map (fun l => d :: l) (seqUpdate ids info st)
  | [], _, _, _, _ => rfl
  | i :: rest, info, st, d, h => by
    show (match async_update i info (d :: st) with
        | .error e => .error e
        | .ok (_, st') => seqUpdate rest info st') =
      Except.map (fun l => d :: l)
        (match async_update i info st with
          | .error e => .error e
          | .ok (_, st') => seqUpdate rest info st')
    rw [async_update_cons_skip i info d st (h i (List.mem_cons_self i rest))]
    cases hres : async_update i info st with
    | error e => rfl
    | ok r =>
      show seqUpdate rest info (d :: r.2) =
        Except.map (fun l => d :: l) (seqUpdate rest info r.2)
      exact seqUpdate_skip rest info r.2 d
        (fun i' hi' => h i' (List.mem_cons_of_mem _ hi'))

/-- With a valid fields map and distinct string ids, updating every item by
its id in order produces exactly the list that `async_update_list` builds. -/
theorem seqUpdate_eq_update_list : ∀ (items : List Dict) (ids : List String)
    (info : List (String × JVal)), validInfo info = true →
    items.map (fun d => dget d "id") = ids.map (fun s => some (JVal.str s)) →
    ids.Nodup →
    seqUpdate ids info items = .ok (async_update_list info items)
  | [], ids, info, _, hid, _ => by
    cases ids with
    | nil => rfl
    | cons i irest => cases hid
  | d :: rest, ids, info, hv, hid, hnd => by
    cases ids with
    | nil => cases hid
    | cons i irest =>
      rw [List.map_cons, List.map_cons] at hid
      injection hid with h1 h2
      rw [List.nodup_cons] at hnd
      have hupd : async_update i info (d :: rest) =
          .ok (dictUpdate d info, dictUpdate d info :: rest) := by
        have := async_update_found i info [] rest d (by intro x hx; cases hx) h1 hv
        simpa using this
      show (match async_update i info (d :: rest) with
          | Except.error e => Except.error e
          | Except.ok (_, st') => seqUpdate irest info st') =
        Except.ok (async_update_list info (d :: rest))
      rw [hupd]
      show seqUpdate irest info (dictUpdate d info :: rest) = _
      have hskip : ∀ i' ∈ irest, ¬dget (dictUpdate d info) "id" = some (JVal.str i') := by
        intro i' hi' hcontra
        rw [dget_dictUpdate_not_mem d info "id" (validInfo_not_mem_id info hv), h1]
          at hcontra
        have : i = i' := by
          injection hcontra with hc
          injection hc
        exact hnd.1 (this ▸ hi')
      rw [seqUpdate_skip irest info rest (dictUpdate d info) hskip,
        seqUpdate_eq_update_list rest irest info hv h2 hnd.2]
      rfl

/-! ### Clear-completed lemmas -/

theorem clear_eq_filter_false (items : List Dict)
    (h : ∀ d ∈ items, ∃ b, dget d "complete" = some (JVal.bool b)) :
    async_clear_completed items =
      items.filter (fun d => decide (dget d "complete" = some (JVal.bool false))) := by
  unfold async_clear_completed
  apply List.filter_congr
  intro d hd
  rcases h d hd with ⟨b, hb⟩
  cases b <;> simp [hb, JVal.truthy]

theorem clear_idempotent (items : List Dict) :
    async_clear_completed (async_clear_completed items) =
      async_clear_completed items := by
  unfold async_clear_completed
  rw [List.filter_filter]
  apply List.filter_congr
  intro d _
  exact Bool.and_self _

/-! ### Add-sequence lemmas -/

theorem keyOf_add_item (name type_ : JVal) (fresh : String) (items : List Dict) :
    keyOf (async_add name type_ fresh items).1 = JVal.str fresh := rfl

theorem keys_addSeq : ∀ (l : List (JVal × JVal × String)) (st : List Dict),
    (addSeq l st).map keyOf = st.map keyOf ++ l.map (fun c => JVal.str c.2.2)
  | [], st => by simp [addSeq]
  | c :: rest, st => by
    show (addSeq rest (st ++ [(async_add c.1 c.2.1 c.2.2 st).1])).map keyOf = _
    rw [keys_addSeq rest _, List.map_append]
    simp [keyOf_add_item]

/-! ### Claims -/

/-- C1 counterexample: for the fields map `{complete: "x"}` (a wrongly typed
value), `async_update` fails with ValidationError but `async_update_list`
does not validate at all and merges the map, so UpdateAll does not behave
identically to Update's partial-field semantics. -/
theorem C1_counterexample :
    validInfo [("complete", JVal.str "x")] = false ∧
    async_update "a" [("complete", JVal.str "x")] exState1 =
      .error .validationError ∧
    updateAllSpec [("complete", JVal.str "x")] exState1 =
      .error .validationError ∧
    Except.ok (async_update_list [("complete", JVal.str "x")] exState1) ≠
      updateAllSpec [("complete", JVal.str "x")] exState1 := by
  refine ⟨rfl, rfl, rfl, fun h => ?_⟩
  rw [show updateAllSpec [("complete", JVal.str "x")] exState1 =
    Except.error StoreErr.validationError from rfl] at h
  exact Except.noConfusion h

/-- C1 (amended): for a fields map that passes `ITEM_UPDATE_SCHEMA`,
UpdateAll agrees with the spec-side UpdateAll and with applying Update to
every item (by id, in list order); fields maps the schema rejects are merged
unvalidated by UpdateAll instead of failing. -/
theorem C1_updateAll_refines_update (info : List (String × JVal))
    (items : List Dict) (ids : List String) (hv : validInfo info = true) :
    Except.ok (async_update_list info items) = updateAllSpec info items ∧
    (items.map (fun d => dget d "id") = ids.map (fun s => some (JVal.str s)) →
      ids.Nodup →
      seqUpdate ids info items = .ok (async_update_list info items)) := by
  constructor
  · unfold updateAllSpec async_update_list
    rw [if_pos hv]
  · intro hid hnd
    exact seqUpdate_eq_update_list items ids info hv hid hnd

/-- C1 witness: the amended claim evaluated on the two-item state with the
valid fields map `{complete: true}`. -/
theorem C1_witness :
    Except.ok (async_update_list [("complete", JVal.bool true)] exState2) =
      updateAllSpec [("complete", JVal.bool true)] exState2 ∧
    seqUpdate ["a", "b"] [("complete", JVal.bool true)] exState2 =
      .ok (async_update_list [("complete", JVal.bool true)] exState2) := by
  have h := C1_updateAll_refines_update [("complete", JVal.bool true)] exState2
    ["a", "b"] rfl
  exact ⟨h.1, h.2 (by decide) (by decide)⟩

/-- C2 counterexample: on the state `[A, B]` (both incomplete) the sequence
`["a", "a"]` only names ids that exist in the list and omits the incomplete
item `B`, yet Reorder fails with ItemNotFound (the duplicate), not with
ValidationError as the claim states. -/
theorem C2_counterexample :
    (∀ i ∈ ["a", "a"], ∃ d ∈ exState2, dget d "id" = some (JVal.str i)) ∧
    (∃ d ∈ exState2, dget d "complete" = some (JVal.bool false) ∧
      (∀ i ∈ ["a", "a"], ¬dget d "id" = some (JVal.str i))) ∧
    async_reorder ["a", "a"] exState2 = .error .itemNotFound ∧
    async_reorder ["a", "a"] exState2 ≠ .error .validationError := by
  refine ⟨by decide, by decide, rfl, fun h => ?_⟩
  rw [show async_reorder ["a", "a"] exState2 =
    Except.error StoreErr.itemNotFound from rfl] at h
  injection h with h'
  cases h'

/-- C2 (amended): on a state with pairwise distinct ids, a duplicate-free
sequence of existing ids that omits an item with `complete == false` makes
Reorder fail with ValidationError (the stored list is assigned only after
both loops, so an error leaves it unchanged). -/
theorem C2_reorder_omitted_incomplete (items : List Dict)
    (item_ids : List String) (hnd : (items.map keyOf).Nodup)
    (hids : item_ids.Nodup)
    (hex : ∀ i ∈ item_ids, JVal.str i ∈ items.map keyOf)
    (hbad : ∃ d ∈ items, dget d "complete" = some (JVal.bool false) ∧
      keyOf d ∉ item_ids.map JVal.str) :
    async_reorder item_ids items = .error .validationError := by
  rw [async_reorder_spec items item_ids hnd hids hex]
  apply appendRest_err
  rcases hbad with ⟨d, hd, hc, hnot⟩
  refine ⟨(keyOf d, d), ?_, ?_⟩
  · exact List.mem_map.mpr ⟨d, List.mem_filter.mpr ⟨hd, by simp [hnot]⟩, rfl⟩
  · show isFalseVal (dget d "complete") = true
    rw [hc]
    rfl

/-- C2 witness: reordering `[A, B]` by `["a"]` omits the incomplete `B` and
fails with ValidationError. -/
theorem C2_witness : async_reorder ["a"] exState2 = .error .validationError :=
  C2_reorder_omitted_incomplete exState2 ["a"] (by decide) (by decide)
    (by decide) (by decide)

/-- C3: on a state with pairwise distinct ids, reordering by a permutation
of all current ids succeeds and returns exactly the items arranged in the
order given by `item_ids`. -/
theorem C3_reorder_permutation (items : List Dict) (item_ids : List String)
    (hnd : (items.map keyOf).Nodup)
    (hperm : List.Perm (item_ids.map JVal.str) (items.map keyOf)) :
    async_reorder item_ids items =
      .ok (item_ids.filterMap (fun i =>
        items.find? (fun d => decide (keyOf d = JVal.str i)))) := by
  have hids : item_ids.Nodup :=
    List.Nodup.of_map JVal.str (hperm.symm.nodup hnd)
  have hex : ∀ i ∈ item_ids, JVal.str i ∈ items.map keyOf := by
    intro i hi
    exact hperm.mem_iff.mp (List.mem_map.mpr ⟨i, hi, rfl⟩)
  rw [async_reorder_spec items item_ids hnd hids hex]
  have hfilter : items.filter
      (fun d => !decide (keyOf d ∈ item_ids.map JVal.str)) = [] := by
    apply List.filter_eq_nil_iff.mpr
    intro d hd
    have hmem : keyOf d ∈ item_ids.map JVal.str :=
      hperm.mem_iff.mpr (List.mem_map.mpr ⟨d, hd, rfl⟩)
    simp [hmem]
  rw [hfilter]
  rfl

/-- C3 witness: reordering `[A, B]` by the permutation `["b", "a"]` yields
`[B, A]`. -/
theorem C3_witness :
    async_reorder ["b", "a"] exState2 =
      .ok (["b", "a"].filterMap (fun i =>
        exState2.find? (fun d => decide (keyOf d = JVal.str i)))) :=
  C3_reorder_permutation exState2 ["b", "a"] (by decide) (by decide)

/-- C4 counterexample: on the state `[A(complete), B(incomplete)]` the
sequence `["b", "b"]` names only existing ids and every omitted item (`A`)
is complete, yet Reorder fails with ItemNotFound at the duplicate instead of
succeeding as the claim states. -/
theorem C4_counterexample :
    (∀ i ∈ ["b", "b"], ∃ d ∈ exState2c, dget d "id" = some (JVal.str i)) ∧
    (∀ d ∈ exState2c, (∀ i ∈ ["b", "b"], ¬dget d "id" = some (JVal.str i)) →
      dget d "complete" = some (JVal.bool true)) ∧
    async_reorder ["b", "b"] exState2c = .error .itemNotFound :=
  ⟨by decide, by decide, rfl⟩

/-- C4 (amended): on a state with pairwise distinct ids, a duplicate-free
sequence of existing ids whose omitted items are all complete makes Reorder
succeed with the named items in the given order followed by the omitted
completed items in their prior relative order. -/
theorem C4_reorder_appends_completed (items : List Dict)
    (item_ids : List String) (hnd : (items.map keyOf).Nodup)
    (hids : item_ids.Nodup)
    (hex : ∀ i ∈ item_ids, JVal.str i ∈ items.map keyOf)
    (homit : ∀ d ∈ items, keyOf d ∉ item_ids.map JVal.str →
      dget d "complete" = some (JVal.bool true)) :
    async_reorder item_ids items =
      .ok (item_ids.filterMap (fun i =>
          items.find? (fun d => decide (keyOf d = JVal.str i))) ++
        items.filter (fun d => !decide (keyOf d ∈ item_ids.map JVal.str))) := by
  rw [async_reorder_spec items item_ids hnd hids hex]
  have hall : ∀ p ∈ (items.filter
      (fun d => !decide (keyOf d ∈ item_ids.map JVal.str))).map
        (fun d => (keyOf d, d)),
      isFalseVal (dget p.2 "complete") = false := by
    intro p hp
    rcases List.mem_map.mp hp with ⟨d, hdf, rfl⟩
    rcases List.mem_filter.mp hdf with ⟨hdi, hcond⟩
    have hnot : keyOf d ∉ item_ids.map JVal.str := by simpa using hcond
    show isFalseVal (dget d "complete") = false
    rw [homit d hdi hnot]
    rfl
  rw [appendRest_ok_of_all _ _ hall,
    pairs_snd (items.filter (fun d => !decide (keyOf d ∈ item_ids.map JVal.str)))]

/-- C4 witness: reordering `[A(complete), B]` by `["b"]` yields `[B, A]`,
with the omitted completed `A` appended after the named `B`. -/
theorem C4_witness :
    async_reorder ["b"] exState2c =
      .ok (["b"].filterMap (fun i =>
          exState2c.find? (fun d => decide (keyOf d = JVal.str i))) ++
        exState2c.filter (fun d => !decide (keyOf d ∈ ["b"].map JVal.str))) :=
  C4_reorder_appends_completed exState2c ["b"] (by decide) (by decide)
    (by decide) (by decide)

/-- C5: a sequence containing an id that occurs in no item makes Reorder
fail with ItemNotFound (an error is raised before the stored list is
reassigned, so the list is unchanged). -/
theorem C5_reorder_missing_id (items : List Dict) (item_ids : List String)
    (h : ∃ i ∈ item_ids, JVal.str i ∉ items.map keyOf) :
    async_reorder item_ids items = .error .itemNotFound := by
  rcases h with ⟨i, hi, hnot⟩
  apply async_reorder_of_loop_err
  apply reorderLoop_err_missing item_ids (buildMapping items) [] i hi
  intro hmem
  exact hnot (keys_buildMapping_subset items _ hmem)

/-- C5 witness: reordering `[A, B]` by `["z"]` fails with ItemNotFound. -/
theorem C5_witness : async_reorder ["z"] exState2 = .error .itemNotFound :=
  C5_reorder_missing_id exState2 ["z"] (by decide)

/-- C6: Update fails with ItemNotFound when no item carries the id; on a
decomposition `pre ++ d :: post` where `d` is the first item with the id and
the fields map is valid, Update returns `d` merged with the fields, replaces
only that item (all other items and positions unchanged), overwrites exactly
the supplied keys and keeps every other key (including `id` and `index`);
and Add followed by `Update(id, {complete: true})` yields an item that is
complete with its original name and type. -/
theorem C6_update_semantics (item_id : String) (info : List (String × JVal))
    (items pre post : List Dict) (d : Dict) (name type_ : JVal)
    (fresh : String) :
    ((∀ x ∈ items, ¬dget x "id" = some (JVal.str item_id)) →
      async_update item_id info items = .error .itemNotFound) ∧
    ((∀ x ∈ pre, ¬dget x "id" = some (JVal.str item_id)) →
      dget d "id" = some (JVal.str item_id) →
      validInfo info = true → (info.map Prod.fst).Nodup →
      async_update item_id info (pre ++ d :: post) =
        .ok (dictUpdate d info, pre ++ dictUpdate d info :: post) ∧
      (∀ k v, (k, v) ∈ info → dget (dictUpdate d info) k = some v) ∧
      (∀ k, k ∉ info.map Prod.fst → dget (dictUpdate d info) k = dget d k)) ∧
    ((∀ x ∈ items, ¬dget x "id" = some (JVal.str fresh)) →
      async_update fresh [("complete", JVal.bool true)]
          (async_add name type_ fresh items).2 =
        .ok (dictUpdate (async_add name type_ fresh items).1
            [("complete", JVal.bool true)],
          items ++ dictUpdate (async_add name type_ fresh items).1
            [("complete", JVal.bool true)] :: []) ∧
      dget (dictUpdate (async_add name type_ fresh items).1
        [("complete", JVal.bool true)]) "complete" = some (JVal.bool true) ∧
      dget (dictUpdate (async_add name type_ fresh items).1
        [("complete", JVal.bool true)]) "name" = some name ∧
      dget (dictUpdate (async_add name type_ fresh items).1
        [("complete", JVal.bool true)]) "type" = some type_) := by
  refine ⟨fun h => async_update_not_found item_id info items h,
    fun hpre hd hv hnd =>
      ⟨async_update_found item_id info pre post d hpre hd hv,
        fun k v hkv => dget_dictUpdate_mem d info k v hnd hkv,
        fun k hk => dget_dictUpdate_not_mem d info k hk⟩,
    fun hfresh => ⟨?_, rfl, rfl, rfl⟩⟩
  exact async_update_found fresh [("complete", JVal.bool true)] items [] _
    hfresh rfl rfl

/-- C6 witness: the not-found case on `[A]` with an unknown id, and the
found case marking `A` complete. -/
theorem C6_witness :
    async_update "z" [] exState1 = .error .itemNotFound ∧
    async_update "a" [("complete", JVal.bool true)] ([] ++ exItemA :: []) =
      .ok (dictUpdate exItemA [("complete", JVal.bool true)],
        [] ++ dictUpdate exItemA [("complete", JVal.bool true)] :: []) := by
  have h1 := C6_update_semantics "z" [] exState1 [] [] exItemA JVal.null
    JVal.null "q"
  have h2 := C6_update_semantics "a" [("complete", JVal.bool true)] exState1
    [] [] exItemA JVal.null JVal.null "q"
  exact ⟨h1.1 (by decide),
    (h2.2.1 (by intro x hx; cases hx) (by decide) rfl (by decide)).1⟩

/-- C7: on a state whose items all carry a boolean `complete` value,
ClearCompleted keeps exactly the items with `complete == false` in their
prior relative order (so exactly the completed items are removed), and it is
idempotent. -/
theorem C7_clear_completed (items : List Dict)
    (h : ∀ d ∈ items, ∃ b, dget d "complete" = some (JVal.bool b)) :
    async_clear_completed items =
      items.filter (fun d =>
        decide (dget d "complete" = some (JVal.bool false))) ∧
    async_clear_completed (async_clear_completed items) =
      async_clear_completed items :=
  ⟨clear_eq_filter_false items h, clear_idempotent items⟩

/-- C7 witness: clearing `[A(complete), B]` keeps exactly `B` and clearing
again changes nothing. -/
theorem C7_witness :
    async_clear_completed exState2c =
      exState2c.filter (fun d =>
        decide (dget d "complete" = some (JVal.bool false))) ∧
    async_clear_completed (async_clear_completed exState2c) =
      async_clear_completed exState2c :=
  C7_clear_completed exState2c (by decide)

/-- C8: Add always succeeds, and the created item has `complete == false`,
`index` equal to the current length and the generated id; the new list is
the old list with exactly that item appended (the first `n` items are
unchanged); given fresh id generation the new id differs from every stored
id. -/
theorem C8_add_appends (name type_ : JVal) (fresh : String)
    (items : List Dict) :
    dget (async_add name type_ fresh items).1 "complete" =
      some (JVal.bool false) ∧
    dget (async_add name type_ fresh items).1 "index" =
      some (JVal.nat items.length) ∧
    dget (async_add name type_ fresh items).1 "id" = some (JVal.str fresh) ∧
    (async_add name type_ fresh items).2 =
      items ++ [(async_add name type_ fresh items).1] ∧
    ((∀ d ∈ items, ¬dget d "id" = some (JVal.str fresh)) →
      ∀ d ∈ items, dget d "id" ≠ dget (async_add name type_ fresh items).1 "id") := by
  refine ⟨rfl, rfl, rfl, rfl, fun h d hd => ?_⟩
  rw [show dget (async_add name type_ fresh items).1 "id" =
    some (JVal.str fresh) from rfl]
  exact h d hd

/-- C8 witness: adding `C` to `[A, B]` with fresh id `c`. -/
theorem C8_witness :
    dget (async_add (JVal.str "C") JVal.null "c" exState2).1 "complete" =
      some (JVal.bool false) ∧
    dget (async_add (JVal.str "C") JVal.null "c" exState2).1 "index" =
      some (JVal.nat exState2.length) ∧
    ∀ d ∈ exState2, dget d "id" ≠
      dget (async_add (JVal.str "C") JVal.null "c" exState2).1 "id" := by
  have h := C8_add_appends (JVal.str "C") JVal.null "c" exState2
  exact ⟨h.1, h.2.1, h.2.2.2.2 (by decide)⟩

/-- C9 counterexample: `async_update_list` performs no validation, so
calling UpdateAll with the fields map `{id: "c"}` maps the distinct-id state
`[A, B]` to a state whose ids coincide — UpdateAll does not preserve the id
uniqueness invariant for arbitrary fields maps. -/
theorem C9_counterexample :
    (exState2.map keyOf).Nodup ∧
    ¬((async_update_list [("id", JVal.str "c")] exState2).map keyOf).Nodup :=
  ⟨by decide, by decide⟩

/-- C9 (amended): every operation except an UpdateAll whose fields map sets
`id` preserves pairwise-distinct ids: Add with a fresh id, a successful
Update, ClearCompleted, UpdateAll for fields maps without an `id` key, a
successful Reorder, and ListItems; and any sequence of Adds with distinct
generated ids starting from the empty list yields pairwise distinct ids. -/
theorem C9_id_uniqueness (items : List Dict) (name type_ : JVal)
    (fresh item_id : String) (info : List (String × JVal))
    (pr : Dict × List Dict) (item_ids : List String) (res : List Dict)
    (l : List (JVal × JVal × String)) :
    ((items.map keyOf).Nodup → (∀ d ∈ items, keyOf d ≠ JVal.str fresh) →
      (((async_add name type_ fresh items).2).map keyOf).Nodup) ∧
    ((items.map keyOf).Nodup → async_update item_id info items = .ok pr →
      (pr.2.map keyOf).Nodup) ∧
    ((items.map keyOf).Nodup → ((async_clear_completed items).map keyOf).Nodup) ∧
    ((items.map keyOf).Nodup → "id" ∉ info.map Prod.fst →
      ((async_update_list info items).map keyOf).Nodup) ∧
    ((items.map keyOf).Nodup → async_reorder item_ids items = .ok res →
      (res.map keyOf).Nodup) ∧
    ((items.map keyOf).Nodup → ((async_list_items items).map keyOf).Nodup) ∧
    ((l.map (fun c => c.2.2)).Nodup → ((addSeq l []).map keyOf).Nodup) := by
  refine ⟨fun hnd hfresh => ?_, fun hnd hok => ?_, fun hnd => ?_,
    fun hnd hid => ?_, fun hnd hok => ?_, fun hnd => hnd, fun hnd => ?_⟩
  · have hkeys : (((async_add name type_ fresh items).2).map keyOf) =
        items.map keyOf ++ [JVal.str fresh] := by
      show ((items ++ [(async_add name type_ fresh items).1]).map keyOf) = _
      rw [List.map_append]
      rfl
    rw [hkeys]
    refine List.Nodup.append hnd (List.nodup_singleton _) ?_
    intro a ha hb
    have hab : a = JVal.str fresh := by simpa using hb
    rcases List.mem_map.mp ha with ⟨d, hd, rfl⟩
    exact hfresh d hd hab
  · rcases async_update_ok_state item_id info items pr hok with ⟨hv, hst⟩
    rw [hst, keys_updFirst item_id info items (validInfo_not_mem_id info hv)]
    exact hnd
  · exact List.Nodup.sublist ((List.filter_sublist items).map keyOf) hnd
  · rw [keys_async_update_list info items hid]
    exact hnd
  · unfold async_reorder at hok
    cases hl : reorderLoop item_ids (buildMapping items) [] with
    | error e => rw [hl] at hok; cases hok
    | ok am =>
      obtain ⟨A, M⟩ := am
      rw [hl] at hok
      have hres : res = A ++ M.map Prod.snd := appendRest_ok_eq M A res hok
      have hperm := reorderLoop_perm item_ids (buildMapping items) [] A M hl
      rw [buildMapping_eq_map items hnd, List.nil_append, pairs_snd] at hperm
      rw [hres]
      exact (hperm.map keyOf).symm.nodup hnd
  · rw [keys_addSeq l []]
    rw [show l.map (fun c => JVal.str c.2.2) =
      (l.map (fun c => c.2.2)).map JVal.str from by rw [List.map_map]; rfl]
    show (([] : List Dict).map keyOf ++
      (l.map (fun c => c.2.2)).map JVal.str).Nodup
    rw [List.map_nil, List.nil_append]
    exact List.Nodup.map (fun a b hab => JVal.str.inj hab) hnd

/-- C9 witness: the amended invariant evaluated on concrete states — Add of
`C`, successful Update of `A`, ClearCompleted, UpdateAll with
`{complete: true}`, the successful Reorder `["b", "a"]`, and a two-Add
sequence. -/
theorem C9_witness :
    (((async_add JVal.null JVal.null "c" exState2).2).map keyOf).Nodup ∧
    (([dictUpdate exItemA [("complete", JVal.bool true)], exItemB].map
      keyOf)).Nodup ∧
    ((async_clear_completed exState2c).map keyOf).Nodup ∧
    ((async_update_list [("complete", JVal.bool true)] exState2).map
      keyOf).Nodup ∧
    (([exItemB, exItemA] : List Dict).map keyOf).Nodup ∧
    ((addSeq [(JVal.null, JVal.null, "a"), (JVal.null, JVal.null, "b")]
      []).map keyOf).Nodup := by
  have h1 := C9_id_uniqueness exState2 JVal.null JVal.null "c" "a"
    [("complete", JVal.bool true)]
    (dictUpdate exItemA [("complete", JVal.bool true)],
      [dictUpdate exItemA [("complete", JVal.bool true)], exItemB])
    ["b", "a"] [exItemB, exItemA]
    [(JVal.null, JVal.null, "a"), (JVal.null, JVal.null, "b")]
  have h3 := C9_id_uniqueness exState2c JVal.null JVal.null "c" "a"
    [("complete", JVal.bool true)]
    (dictUpdate exItemA [("complete", JVal.bool true)],
      [dictUpdate exItemA [("complete", JVal.bool true)], exItemB])
    ["b", "a"] [exItemB, exItemA]
    [(JVal.null, JVal.null, "a"), (JVal.null, JVal.null, "b")]
  exact ⟨h1.1 (by decide) (by decide),
    h1.2.1 (by decide) rfl,
    h3.2.2.1 (by decide),
    h1.2.2.2.1 (by decide) (by decide),
    h1.2.2.2.2.1 (by decide) rfl,
    h1.2.2.2.2.2.2 (by decide)⟩

/-- C10: a sequence in which some id occurs twice always makes Reorder fail
with ItemNotFound, because the first occurrence removes the id from the
lookup mapping; the stored list is assigned only on success, so it is left
unchanged. -/
theorem C10_reorder_duplicate (items : List Dict) (item_ids : List String)
    (h : ¬item_ids.Nodup) :
    async_reorder item_ids items = .error .itemNotFound := by
  apply async_reorder_of_loop_err
  exact reorderLoop_dup item_ids (buildMapping items) []
    (nodup_keys_buildMapping items) h

/-- C10 witness: reordering `[A, B]` by `["b", "b"]` (both existing ids)
fails with ItemNotFound. -/
theorem C10_witness :
    async_reorder ["b", "b"] exState2 = .error .itemNotFound :=
  C10_reorder_duplicate exState2 ["b", "b"] (by decide)

end CheckList
